import Mathlib

/-!
Verification development for the Careerwill downloader
(`src/careerwill.py`). We shallowly embed the discovery-and-orchestration
engine: manifest-URL extraction (`discover_manifest_urls`), URL
normalization (`urljoin` on root-relative references), enrolled-course
discovery (`get_enrolled_courses`), the per-manifest download loop
(`download_course`), and Netscape cookie-file parsing from `__init__`.

External collaborators (the HTTP transport, the markup parser, the
yt-dlp tool) are modelled as inputs: a fetch outcome carries the HTTP
status and the parsed document (raw text, inline script texts, anchor
hrefs as the markup parser would deliver them), and the external tool is
a callback returning success or failure per invocation.

Strings are modelled on their underlying character lists so that every
operation is executable and provable by `decide` on concrete pages.
-/

namespace Careerwill

/-- Double-quote character, the single character excluded by the first
character class of the manifest regex. -/
def dquote : Char := Char.ofNat 34

/-- Single-quote character, excluded (together with `dquote`) by the
query-string character class of the manifest regex. -/
def squote : Char := Char.ofNat 39

/-!
The manifest pattern from `discover_manifest_urls` (lines 66 and 74 of
`careerwill.py`) is `https?://[^"]+?\.(?:m3u8|mpd)(?:\?[^"']*)?`.
(In the Python source the raw string quoting around the first character
class is slipped — the first `"` inside `[^"]` is not escaped, which
makes the literal file text ill-formed Python; the evident pattern, with
the first class excluding `"` and the query class excluding `"` and the
single quote, is what we embed.)

We model Python `re.findall` semantics directly: scan left to right,
at each position attempt a match (`https?` greedy on the optional `s`,
lazy `[^"]+?` body taking the fewest characters that allow
`\.(?:m3u8|mpd)` to match, then the greedy optional query group), emit
non-overlapping matches and resume after each match.
-/

/-- Match the extension alternation `(?:m3u8|mpd)` at the head of `cs`,
returning the number of characters consumed. -/
def extAt (cs : List Char) : Option Nat :=
  if ['m', '3', 'u', '8'].isPrefixOf cs then some 4
  else if ['m', 'p', 'd'].isPrefixOf cs then some 3
  else none

/-- Number of characters consumed by the optional query group
`(?:\?[^"']*)?` at the head of `cs`: greedy, so a leading `?` takes the
longest run of characters that are neither quote kind; otherwise zero. -/
def queryLen (cs : List Char) : Nat :=
  match cs with
  | [] => 0
  | c :: rest =>
    if c = '?' then 1 + (rest.takeWhile (fun d => !(d == dquote) && !(d == squote))).length
    else 0

/-- Match the continuation `\.(?:m3u8|mpd)(?:\?[^"']*)?` at the head of
`cs`, returning the number of characters consumed. -/
def contAt (cs : List Char) : Option Nat :=
  match cs with
  | [] => none
  | c :: rest =>
    if c = '.' then
      match extAt rest with
      | some e => some (1 + e + queryLen (rest.drop e))
      | none => none
    else none

/-- Lazy body `[^"]+?` followed by the continuation: consume one
non-double-quote character at a time, stopping at the first point where
the continuation matches (non-greedy `+?` semantics). Returns the total
number of characters consumed by body plus continuation. -/
def lazyBody : List Char → Option Nat
  | [] => none
  | c :: rest =>
    if c = dquote then none
    else
      match contAt rest with
      | some n => some (1 + n)
      | none =>
        match lazyBody rest with
        | some n => some (1 + n)
        | none => none

/-- Match the scheme `https?://` at the head of `cs` (greedy optional
`s`), returning the number of characters consumed. -/
def matchScheme (cs : List Char) : Option Nat :=
  if ['h', 't', 't', 'p', 's', ':', '/', '/'].isPrefixOf cs then some 8
  else if ['h', 't', 't', 'p', ':', '/', '/'].isPrefixOf cs then some 7
  else none

/-- Attempt a full manifest-pattern match anchored at the head of `cs`,
returning the length of the match. -/
def matchManifestAt (cs : List Char) : Option Nat :=
  match matchScheme cs with
  | none => none
  | some k =>
    match lazyBody (cs.drop k) with
    | none => none
    | some n => some (k + n)

/-- Scanning loop of `re.findall`: `skip` counts characters still to be
skipped past the previous match before attempting a new match. At skip
zero, a match of length `n` is emitted and scanning resumes after it. -/
def findallAux : List Char → Nat → List (List Char)
  | [], _ => []
  | _ :: rest, skip + 1 => findallAux rest skip
  | c :: rest, 0 =>
    match matchManifestAt (c :: rest) with
    | some n => (c :: rest).take n :: findallAux rest (n - 1)
    | none => findallAux rest 0

/-- All non-overlapping manifest-pattern matches in `cs`, left to
right — `re.findall(pattern, text)` (the single group spans the whole
pattern, so each returned string is the whole match). -/
def findallManifest (cs : List Char) : List (List Char) :=
  findallAux cs 0

/-- String-level wrapper for `findallManifest`. -/
def findall_manifest (s : String) : List String :=
  (findallManifest s.data).map String.mk

/-- Python `str.startswith`, modelled on character lists. -/
def pyStartsWith (s pre : String) : Bool :=
  pre.data.isPrefixOf s.data

/-- Split a character list at the first occurrence of `://`, returning
the scheme part and the remainder, or nothing when no separator
occurs. -/
def splitSchemeAux : List Char → Option (List Char × List Char)
  | [] => none
  | c :: rest =>
    if [':', '/', '/'].isPrefixOf (c :: rest) then some ([], (c :: rest).drop 3)
    else
      match splitSchemeAux rest with
      | some (pre, post) => some (c :: pre, post)
      | none => none

/-- Model of `urllib.parse.urljoin(base, url)` for the shapes the code
produces: the base is an `http(s)://` URL and the code only joins
references that start with `/`, i.e. absolute-path references
(`/p` → scheme://netloc/p) and network-path references
(`//h/p` → scheme://h/p); a base without a scheme separator leaves the
reference unchanged, as `urljoin` does for such bases. -/
def urljoin (base url : String) : String :=
  match splitSchemeAux base.data with
  | some (scheme, hostpath) =>
    if pyStartsWith url "//" then String.mk scheme ++ ":" ++ url
    else String.mk scheme ++ "://" ++ String.mk (hostpath.takeWhile (fun c => !(c == '/'))) ++ url
  | none => url

/-- A fetched page as delivered by the markup parser (an external
collaborator): the raw page text, the inline text content of each
`<script>` element (`script.string`, empty when absent), and the `href`
attribute of each `<a href=...>` element, in document order. -/
structure Doc where
  rawText : String
  scriptTexts : List String
  hrefs : List String
  deriving Repr, DecidableEq

/-- Python `set.add`: insert a string into a duplicate-free list unless
already present. The list order stands in for the set's iteration
order; every claim proved below depends only on the underlying set. -/
def insertNew (l : List String) (x : String) : List String :=
  if x ∈ l then l else l ++ [x]

/-- `CareerwillDownloader.discover_manifest_urls(html, base_url)`:
collect manifest-pattern matches from the raw page text and from every
non-empty inline script text into a set, then normalize each candidate —
a candidate starting with `/` is resolved against `base_url` with
`urljoin`, every other candidate is kept as-is — and return the set as a
list. -/
def discover_manifest_urls (doc : Doc) (base_url : String) : List String :=
  let manifests := doc.scriptTexts.foldl
    (fun acc sc => if sc = "" then acc else (findall_manifest sc).foldl insertNew acc)
    ((findall_manifest doc.rawText).foldl insertNew [])
  manifests.foldl
    (fun acc url =>
      insertNew acc (if pyStartsWith url "/" then urljoin base_url url else url)) []

/-- Python substring containment (`pat in hay`), on character lists. -/
def listContains (hay pat : List Char) : Bool :=
  match hay with
  | [] => pat.isEmpty
  | c :: t => pat.isPrefixOf (c :: t) || listContains t pat

/-- Python substring containment on strings. -/
def strContains (s pat : String) : Bool :=
  listContains s.data pat.data

/-- Python `href.split('?')[0]`: everything before the first `?`. -/
def stripQuery (s : String) : String :=
  String.mk (s.data.takeWhile (fun c => !(c == '?')))

/-- Outcome of one `session.get` call, as delivered by the HTTP
transport (an external collaborator): either a network-level failure or
a response with an HTTP status code and the parsed document. -/
inductive FetchResult where
  | netError
  | response (status : Nat) (doc : Doc)
  deriving Repr, DecidableEq

/-- Success statuses. Modelled from the spec: the transport interface
must surface non-2xx responses as errors (`resp.raise_for_status()`);
a 2xx status is a success. -/
def statusOk (status : Nat) : Bool :=
  200 ≤ status && status < 300

/-- Errors a fetch-plus-`raise_for_status` sequence can surface. -/
inductive FetchError where
  | network
  | httpStatus (code : Nat)
  deriving Repr, DecidableEq

/-- `CareerwillDownloader.fetch_course_page(course_url)`: perform the
GET, raise on a non-success status, return the page document. Errors
propagate to the caller (nothing is caught here). -/
def fetch_course_page (fetch : FetchResult) : Except FetchError Doc :=
  match fetch with
  | .netError => .error .network
  | .response status doc =>
    if statusOk status then .ok doc else .error (.httpStatus status)

/-- Resolution step applied to each href in `get_enrolled_courses`:
a root-relative href is resolved against the dashboard URL, every other
href is kept as-is. -/
def resolveHref (dashboard_url href : String) : String :=
  if pyStartsWith href "/" then urljoin dashboard_url href else href

/-- Loop body of the candidate collection in `get_enrolled_courses`:
resolve the href, and when the resolved string contains `/course/` or
`/learn/`, add it to the candidate set with its query string
stripped. -/
def courseStep (dashboard_url : String) (acc : List String) (href₀ : String) : List String :=
  let href := resolveHref dashboard_url href₀
  if strContains href "/course/" || strContains href "/learn/" then
    insertNew acc (stripQuery href)
  else acc

/-- Candidate-collection loop of `get_enrolled_courses` over all parsed
hrefs. -/
def candidatesOf (dashboard_url : String) (hrefs : List String) : List String :=
  hrefs.foldl (courseStep dashboard_url) []

/-- Lexicographic (code-point) comparison on character lists: the order
Python uses to compare strings. `lexLe as bs` is `as ≤ bs`. -/
def lexLe : List Char → List Char → Bool
  | [], _ => true
  | _ :: _, [] => false
  | a :: as, b :: bs =>
    if a.toNat < b.toNat then true
    else if b.toNat < a.toNat then false
    else lexLe as bs

/-- Code-point lexicographic `≤` on strings, Python's string order. -/
def strLe (a b : String) : Bool :=
  lexLe a.data b.data

/-- Python `sorted` on strings: ascending in the lexicographic
(code-point) order. The input sets below are duplicate-free, so
insertion sort computes exactly the sorted listing of the set. -/
def sortStrings (l : List String) : List String :=
  List.insertionSort (fun a b => strLe a b = true) l

/-- `CareerwillDownloader.get_enrolled_courses(dashboard_url)`: default
the dashboard URL to the site root, fetch it, and on any failure
(network error or non-success status) log and return the empty list;
otherwise collect, strip, deduplicate and sort the qualifying hrefs. -/
def get_enrolled_courses (fetch : FetchResult) (dashboard_url : Option String) : List String :=
  let dash := dashboard_url.getD "https://web.careerwill.com/"
  match fetch with
  | .netError => []
  | .response status doc =>
    if statusOk status then sortStrings (candidatesOf dash doc.hrefs)
    else []

/-- Outcome of one invocation of the external download tool
(`download_manifest_with_ytdlp`): `fail` covers both the tool raising
and the tool being unavailable (`yt_dlp is None`), which the code turns
into a raised `RuntimeError` — both are exceptions caught by the loop. -/
inductive ToolResult where
  | ok
  | fail
  deriving Repr, DecidableEq

/-- Observable events of the orchestration loop in `download_course`:
a tool invocation for the `idx`-th manifest (1-indexed, output
subdirectory `manifest_<idx>`), a logged per-manifest failure, or the
no-manifests warning. -/
inductive Event where
  | attempted (idx : Nat) (url : String)
  | failureLogged (idx : Nat) (url : String)
  | warnedNoManifests
  deriving Repr, DecidableEq

/-- Per-manifest loop of `download_course` (`for i, m in
enumerate(manifests, start=1)`): invoke the tool on each manifest in
turn; a failure is logged with the offending URL and the loop
continues. -/
def processManifests (tool : Nat → String → ToolResult) : Nat → List String → List Event
  | _, [] => []
  | i, m :: rest =>
    match tool i m with
    | .ok => .attempted i m :: processManifests tool (i + 1) rest
    | .fail => .attempted i m :: .failureLogged i m :: processManifests tool (i + 1) rest

/-- `CareerwillDownloader.download_course(course_url)`: fetch the course
page (failures propagate — `Except.error`), discover manifests, warn
and return when none are found, otherwise run the per-manifest loop.
The returned event list is the trace of tool invocations and logged
failures. -/
def download_course (fetch : FetchResult) (tool : Nat → String → ToolResult)
    (course_url : String) : Except FetchError (List Event) :=
  match fetch_course_page fetch with
  | .error e => .error e
  | .ok doc =>
    let manifests := discover_manifest_urls doc course_url
    if manifests.isEmpty then .ok [.warnedNoManifests]
    else .ok (processManifests tool 1 manifests)

/-- Characters Python `str.splitlines` treats as line boundaries
(`\n`, `\r` — with `\r\n` as a single boundary — vertical tab, form
feed, the separator controls 28–30, NEL, LINE SEPARATOR and PARAGRAPH
SEPARATOR). -/
def lineBreakChar (c : Char) : Bool :=
  c == Char.ofNat 10 || c == Char.ofNat 13 || c == Char.ofNat 11 || c == Char.ofNat 12 ||
  c == Char.ofNat 28 || c == Char.ofNat 29 || c == Char.ofNat 30 || c == Char.ofNat 133 ||
  c == Char.ofNat 8232 || c == Char.ofNat 8233

/-- Python `str.splitlines`: split at line boundaries, `\r\n` counting
as one boundary, with no trailing empty line for a trailing boundary. -/
def pysplitlines : List Char → List (List Char)
  | [] => []
  | c :: rest =>
    if lineBreakChar c then
      match rest with
      | [] => [[]]
      | c₂ :: rest₂ =>
        if c == '\r' && c₂ == '\n' then [] :: pysplitlines rest₂
        else [] :: pysplitlines (c₂ :: rest₂)
    else
      match pysplitlines rest with
      | [] => [[c]]
      | h :: t => (c :: h) :: t

/-- Python `str.split(sep)` for a one-character separator: no collapsing
of adjacent separators, and the empty string yields `[""]`. -/
def splitOnChar (sep : Char) : List Char → List (List Char)
  | [] => [[]]
  | c :: rest =>
    let r := splitOnChar sep rest
    if c = sep then [] :: r
    else
      match r with
      | h :: t => (c :: h) :: t
      | [] => [[c]]

/-- Whitespace for Python `str.strip()` as used on cookie-file lines
(`not line.strip()` detects blank lines): space, tab, and the line
control characters. -/
def pyIsSpace (c : Char) : Bool :=
  c == Char.ofNat 32 || c == Char.ofNat 9 || c == Char.ofNat 10 || c == Char.ofNat 13 ||
  c == Char.ofNat 11 || c == Char.ofNat 12

/-- One cookie registration, `session.cookies.set(name, value,
domain=domain)`. -/
structure Cookie where
  domain : String
  name : String
  value : String
  deriving Repr, DecidableEq

/-- Tab character, the cookie-file field separator. -/
def tab : Char := Char.ofNat 9

/-- Cookie-loading loop from `CareerwillDownloader.__init__`: for each
line of the file, skip comment lines (starting `#`) and blank lines,
split the rest on tabs, and when at least 7 fields are present register
one cookie from fields 0 (domain), 5 (name) and 6 (value). The returned
list records the `cookies.set` calls in order. -/
def parseCookies (raw : String) : List Cookie :=
  (pysplitlines raw.data).foldl
    (fun acc line =>
      if ['#'].isPrefixOf line || line.all pyIsSpace then acc
      else
        let parts := splitOnChar tab line
        if 7 ≤ parts.length then
          acc ++ [⟨String.mk (parts.getD 0 []), String.mk (parts.getD 5 []),
                   String.mk (parts.getD 6 [])⟩]
        else acc) []

/-- True when some position of `cs` starts a manifest-pattern match:
`cs` contains a substring matched by the manifest pattern. -/
def containsManifestMatch : List Char → Bool
  | [] => false
  | c :: rest => (matchManifestAt (c :: rest)).isSome || containsManifestMatch rest

/-- The example page of the specification: a script blob carrying an
absolute `.m3u8` URL in a JSON configuration object, and a visible link
whose href is the root-relative `/video/b.mpd`. The script text and the
href are listed as the markup parser would deliver them. -/
def examplePage : Doc :=
  { rawText := "<script>var cfg=\x7b\"src\":\"https://cdn.example.com/a.m3u8\"\x7d</script><a href=\"/video/b.mpd\">link</a>"
    scriptTexts := ["var cfg=\x7b\"src\":\"https://cdn.example.com/a.m3u8\"\x7d"]
    hrefs := ["/video/b.mpd"] }

/-! ## Claim theorems -/

/-- General shape of an accumulate-unless-skipped loop: folding a
skip-or-append step over a list appends exactly the `filterMap` of the
per-item extraction. -/
theorem foldl_skip_append {α β : Type} (p q : α → Prop) [DecidablePred p] [DecidablePred q]
    (v : α → β) :
    ∀ (lines : List α) (acc : List β),
      lines.foldl
          (fun acc line => if p line then acc else if q line then acc ++ [v line] else acc)
          acc
        = acc ++ lines.filterMap
            (fun line => if p line then none else if q line then some (v line) else none) := by
  intro lines
  induction lines with
  | nil => intro acc; simp
  | cons l t ih =>
    intro acc
    by_cases hp : p l
    · simp [hp, ih]
    · by_cases hq : q l
      · simp [hp, hq, ih]
      · simp [hp, hq, ih]

/-- C7: when parsing the cookie file, every non-comment, non-blank line
with fewer than 7 tab-separated fields registers no cookie, every line
with 7 or more fields registers exactly one cookie with name from field
5, value from field 6, scoped to the domain in field 0, and lines
starting with `#` and blank lines are ignored: the registered cookies
are exactly the image of the qualifying lines under that field
extraction, in order. -/
theorem cookie_line_registration (raw : String) :
    parseCookies raw = (pysplitlines raw.data).filterMap (fun line =>
      if ['#'].isPrefixOf line || line.all pyIsSpace then none
      else if 7 ≤ (splitOnChar tab line).length then
        some ⟨String.mk ((splitOnChar tab line).getD 0 []),
              String.mk ((splitOnChar tab line).getD 5 []),
              String.mk ((splitOnChar tab line).getD 6 [])⟩
      else none) :=
  (foldl_skip_append
      (fun line => (['#'].isPrefixOf line || line.all pyIsSpace) = true)
      (fun line => 7 ≤ (splitOnChar tab line).length)
      (fun line => Cookie.mk (String.mk ((splitOnChar tab line).getD 0 []))
                    (String.mk ((splitOnChar tab line).getD 5 []))
                    (String.mk ((splitOnChar tab line).getD 6 [])))
      (pysplitlines raw.data) []).trans (List.nil_append _)

/-- C5: a dashboard fetch failure — a network error or a non-success
HTTP status — makes `get_enrolled_courses` return the empty list; the
failure is absorbed at this boundary (the embedding is a total
function, so nothing propagates). -/
theorem dashboard_fetch_failure_yields_empty :
    ∀ (fetch : FetchResult) (dash : Option String),
      fetch = FetchResult.netError ∨
        (∃ s d, fetch = FetchResult.response s d ∧ statusOk s = false) →
      get_enrolled_courses fetch dash = [] := by
  intro fetch dash h
  rcases h with h | ⟨s, d, hf, hs⟩
  · subst h; rfl
  · subst hf; simp [get_enrolled_courses, hs]

/-- Witness for C5 at a concrete 404 dashboard response. -/
theorem dashboard_fetch_failure_yields_empty_witness :
    get_enrolled_courses (FetchResult.response 404 ⟨"", [], ["/course/1"]⟩) none = [] :=
  dashboard_fetch_failure_yields_empty _ none (Or.inr ⟨404, ⟨"", [], ["/course/1"]⟩, rfl, rfl⟩)

/-- C6: a course-page fetch failure propagates out of `download_course`
as an error: a non-2xx response surfaces as `Except.error (.httpStatus s)`
and a network failure as `Except.error .network`, so no manifest
extraction happens and no download is attempted (the event trace exists
only in the `Except.ok` result). -/
theorem course_fetch_failure_is_fatal :
    ∀ (tool : Nat → String → ToolResult) (url : String) (s : Nat) (d : Doc),
      statusOk s = false →
      download_course (FetchResult.response s d) tool url =
        Except.error (FetchError.httpStatus s) ∧
      download_course FetchResult.netError tool url = Except.error FetchError.network := by
  intro tool url s d hs
  exact ⟨by simp [download_course, fetch_course_page, hs], rfl⟩

/-- Witness for C6 at a concrete 404 course-page response. -/
theorem course_fetch_failure_is_fatal_witness :
    download_course (FetchResult.response 404 ⟨"", [], []⟩) (fun _ _ => ToolResult.ok)
        "https://site.example/course/1" =
      Except.error (FetchError.httpStatus 404) ∧
    download_course FetchResult.netError (fun _ _ => ToolResult.ok)
        "https://site.example/course/1" = Except.error FetchError.network :=
  course_fetch_failure_is_fatal (fun _ _ => ToolResult.ok) "https://site.example/course/1"
    404 ⟨"", [], []⟩ rfl

/-- C8: when the course page is fetched successfully and zero manifests
are discovered, `download_course` returns successfully with only the
warning event — the external tool is never invoked and nothing is
raised. -/
theorem zero_manifests_warn_return :
    ∀ (tool : Nat → String → ToolResult) (url : String) (s : Nat) (d : Doc),
      statusOk s = true → discover_manifest_urls d url = [] →
      download_course (FetchResult.response s d) tool url =
        Except.ok [Event.warnedNoManifests] := by
  intro tool url s d hs hm
  simp [download_course, fetch_course_page, hs, hm]

/-- Witness for C8 at a concrete page with no manifest references. -/
theorem zero_manifests_warn_return_witness :
    download_course (FetchResult.response 200 ⟨"nothing here", [], []⟩)
        (fun _ _ => ToolResult.ok) "https://site.example/course/1" =
      Except.ok [Event.warnedNoManifests] :=
  zero_manifests_warn_return (fun _ _ => ToolResult.ok) "https://site.example/course/1"
    200 ⟨"nothing here", [], []⟩ rfl (by decide)

/-- Every manifest handed to the per-manifest loop is attempted, and a
failing invocation additionally logs a failure with the offending URL —
regardless of how any other invocation behaves. -/
theorem processManifests_covers :
    ∀ (tool : Nat → String → ToolResult) (ms : List String) (start : Nat) (i : Nat)
      (hi : i < ms.length),
      Event.attempted (start + i) (ms.get ⟨i, hi⟩) ∈ processManifests tool start ms ∧
      (tool (start + i) (ms.get ⟨i, hi⟩) = ToolResult.fail →
        Event.failureLogged (start + i) (ms.get ⟨i, hi⟩) ∈ processManifests tool start ms) := by
  intro tool ms
  induction ms with
  | nil => intro start i hi; exact absurd hi (by simp)
  | cons m rest ih =>
    intro start i hi
    cases htool : tool start m with
    | ok =>
      have hu : processManifests tool start (m :: rest) =
          Event.attempted start m :: processManifests tool (start + 1) rest := by
        simp only [processManifests, htool]
      cases i with
      | zero =>
        refine ⟨?_, fun hf => ?_⟩
        · rw [hu]; exact List.mem_cons_self _ _
        · have hf' : tool start m = ToolResult.fail := hf
          rw [htool] at hf'
          cases hf'
      | succ j =>
        have hj : j < rest.length := Nat.lt_of_succ_lt_succ hi
        obtain ⟨h1, h2⟩ := ih (start + 1) j hj
        have harith : start + (j + 1) = start + 1 + j := by omega
        have hget : (m :: rest).get ⟨j + 1, hi⟩ = rest.get ⟨j, hj⟩ := rfl
        rw [hget, harith, hu]
        exact ⟨List.mem_cons_of_mem _ h1, fun hf => List.mem_cons_of_mem _ (h2 hf)⟩
    | fail =>
      have hu : processManifests tool start (m :: rest) =
          Event.attempted start m :: Event.failureLogged start m ::
            processManifests tool (start + 1) rest := by
        simp only [processManifests, htool]
      cases i with
      | zero =>
        refine ⟨?_, fun _ => ?_⟩
        · rw [hu]; exact List.mem_cons_self _ _
        · rw [hu]; exact List.mem_cons_of_mem _ (List.mem_cons_self _ _)
      | succ j =>
        have hj : j < rest.length := Nat.lt_of_succ_lt_succ hi
        obtain ⟨h1, h2⟩ := ih (start + 1) j hj
        have harith : start + (j + 1) = start + 1 + j := by omega
        have hget : (m :: rest).get ⟨j + 1, hi⟩ = rest.get ⟨j, hj⟩ := rfl
        rw [hget, harith, hu]
        exact ⟨List.mem_cons_of_mem _ (List.mem_cons_of_mem _ h1),
               fun hf => List.mem_cons_of_mem _ (List.mem_cons_of_mem _ (h2 hf))⟩

/-- C3: each manifest's download attempt is isolated — for every course
page fetched successfully, `download_course` returns a trace in which
every discovered manifest was attempted (with its 1-indexed position),
and every manifest whose tool invocation failed has a logged failure
carrying its URL; no failure stops the later attempts. -/
theorem manifest_download_isolation :
    ∀ (tool : Nat → String → ToolResult) (url : String) (s : Nat) (d : Doc),
      statusOk s = true →
      ∃ evs, download_course (FetchResult.response s d) tool url = Except.ok evs ∧
        ∀ (i : Nat) (hi : i < (discover_manifest_urls d url).length),
          Event.attempted (i + 1) ((discover_manifest_urls d url).get ⟨i, hi⟩) ∈ evs ∧
          (tool (i + 1) ((discover_manifest_urls d url).get ⟨i, hi⟩) = ToolResult.fail →
            Event.failureLogged (i + 1) ((discover_manifest_urls d url).get ⟨i, hi⟩) ∈ evs) := by
  intro tool url s d hs
  by_cases hm : discover_manifest_urls d url = []
  · refine ⟨[Event.warnedNoManifests], ?_, fun i hi => absurd hi (by simp [hm])⟩
    simp [download_course, fetch_course_page, hs, hm]
  · refine ⟨processManifests tool 1 (discover_manifest_urls d url), ?_, ?_⟩
    · have hne : (discover_manifest_urls d url).isEmpty = false := by
        cases hd : discover_manifest_urls d url
        · exact absurd hd hm
        · rfl
      simp [download_course, fetch_course_page, hs, hne]
    · intro i hi
      have h := processManifests_covers tool (discover_manifest_urls d url) 1 i hi
      rwa [Nat.add_comm 1 i] at h

/-- Witness for C3: a page with three manifests where only the second
invocation fails; the third manifest is still attempted. -/
theorem manifest_download_isolation_witness :
    Event.attempted 3 "https://a.example/3.mpd" ∈
      ((download_course
          (FetchResult.response 200
            ⟨"https://a.example/1.m3u8 https://a.example/2.m3u8 https://a.example/3.mpd",
             [], []⟩)
          (fun i _ => if i = 2 then ToolResult.fail else ToolResult.ok)
          "https://site.example/course/1").toOption.getD []) := by
  obtain ⟨evs, hok, hall⟩ := manifest_download_isolation
    (fun i _ => if i = 2 then ToolResult.fail else ToolResult.ok)
    "https://site.example/course/1" 200
    ⟨"https://a.example/1.m3u8 https://a.example/2.m3u8 https://a.example/3.mpd", [], []⟩
    rfl
  rw [hok]
  exact (hall 2 (by decide)).1

/-- When no position of `cs` starts a manifest-pattern match, the scan
finds nothing, whatever the skip state. -/
theorem findallAux_eq_nil :
    ∀ (cs : List Char), containsManifestMatch cs = false → ∀ skip, findallAux cs skip = [] := by
  intro cs
  induction cs with
  | nil => intro _ skip; cases skip <;> rfl
  | cons c rest ih =>
    intro h skip
    have hm : matchManifestAt (c :: rest) = none := by
      cases hmm : matchManifestAt (c :: rest) with
      | none => rfl
      | some n => rw [containsManifestMatch, hmm] at h; cases h
    have hrest : containsManifestMatch rest = false := by
      rw [containsManifestMatch, hm] at h
      simpa using h
    cases skip with
    | zero =>
      rw [show findallAux (c :: rest) 0
            = (match matchManifestAt (c :: rest) with
               | some n => (c :: rest).take n :: findallAux rest (n - 1)
               | none => findallAux rest 0) from rfl, hm]
      exact ih hrest 0
    | succ k => exact ih hrest k

/-- C9: a page whose text and script blocks contain no
manifest-pattern substring yields an empty manifest list, for every
base URL; the embedding is a total function, so no exception can
arise. -/
theorem no_manifest_pattern_empty :
    ∀ (d : Doc) (base : String),
      containsManifestMatch d.rawText.data = false →
      (∀ sc ∈ d.scriptTexts, containsManifestMatch sc.data = false) →
      discover_manifest_urls d base = [] := by
  intro d base hraw hsc
  have hfind : ∀ (s : String), containsManifestMatch s.data = false → findall_manifest s = [] := by
    intro s hcm
    unfold findall_manifest findallManifest
    rw [findallAux_eq_nil s.data hcm 0]
    rfl
  have hscripts : ∀ (l : List String), (∀ sc ∈ l, containsManifestMatch sc.data = false) →
      ∀ acc, l.foldl
          (fun acc sc => if sc = "" then acc else (findall_manifest sc).foldl insertNew acc) acc
        = acc := by
    intro l
    induction l with
    | nil => intro _ acc; rfl
    | cons sc t ih =>
      intro hl acc
      have hf : findall_manifest sc = [] := hfind sc (hl sc (List.mem_cons_self sc t))
      have ht : ∀ x ∈ t, containsManifestMatch x.data = false :=
        fun x hx => hl x (List.mem_cons_of_mem _ hx)
      by_cases he : sc = ""
      · rw [List.foldl_cons, if_pos he]
        exact ih ht acc
      · rw [List.foldl_cons, if_neg he, hf]
        exact ih ht acc
  unfold discover_manifest_urls
  rw [hfind d.rawText hraw]
  simp only [List.foldl_nil]
  rw [hscripts d.scriptTexts hsc []]
  rfl

/-- Witness for C9 at a concrete page with no manifest-pattern
substrings. -/
theorem no_manifest_pattern_empty_witness :
    discover_manifest_urls ⟨"hello world", ["var x = 1;"], []⟩ "https://site.example/" = [] :=
  no_manifest_pattern_empty ⟨"hello world", ["var x = 1;"], []⟩ "https://site.example/"
    (by decide) (by decide)

/-- The lazy body of the pattern consumes at least one character. -/
theorem lazyBody_pos : ∀ (cs : List Char) (n : Nat), lazyBody cs = some n → 1 ≤ n := by
  intro cs n h
  cases cs with
  | nil => cases h
  | cons c rest =>
    rw [lazyBody] at h
    split at h
    · cases h
    · cases hc : contAt rest with
      | some m => rw [hc] at h; simp at h; omega
      | none =>
        rw [hc] at h
        cases hl : lazyBody rest with
        | some m => rw [hl] at h; simp at h; omega
        | none => rw [hl] at h; cases h

/-- A successful scheme match is one of the two scheme literals, with
its length. -/
theorem matchScheme_cases (cs : List Char) (k : Nat) (h : matchScheme cs = some k) :
    (['h', 't', 't', 'p', 's', ':', '/', '/'].isPrefixOf cs = true ∧ k = 8) ∨
    (['h', 't', 't', 'p', ':', '/', '/'].isPrefixOf cs = true ∧ k = 7) := by
  rw [matchScheme] at h
  split at h
  next h8 => cases h; exact Or.inl ⟨h8, rfl⟩
  next h8 =>
    split at h
    next h7 => cases h; exact Or.inr ⟨h7, rfl⟩
    next h7 => cases h

/-- A full pattern match starts with one of the two scheme literals and
is strictly longer than it. -/
theorem matchManifestAt_bounds (cs : List Char) (n : Nat) (h : matchManifestAt cs = some n) :
    (['h', 't', 't', 'p', 's', ':', '/', '/'].isPrefixOf cs = true ∧ 9 ≤ n) ∨
    (['h', 't', 't', 'p', ':', '/', '/'].isPrefixOf cs = true ∧ 8 ≤ n) := by
  unfold matchManifestAt at h
  split at h
  · cases h
  next k hs =>
    split at h
    · cases h
    next m hl =>
      have hn : k + m = n := by injection h with h'
      have hm := lazyBody_pos (cs.drop k) m hl
      rcases matchScheme_cases cs k hs with ⟨hp, hk⟩ | ⟨hp, hk⟩
      · exact Or.inl ⟨hp, by omega⟩
      · exact Or.inr ⟨hp, by omega⟩

/-- Taking at least as many elements as a prefix is long preserves the
prefix. -/
theorem take_isPrefixOf {p l : List Char} {n : Nat}
    (hp : p.isPrefixOf l = true) (hn : p.length ≤ n) : p.isPrefixOf (l.take n) = true := by
  rw [ List.isPrefixOf_iff_prefix] at hp ⊢
  obtain ⟨t, rfl⟩ := hp
  rw [List.take_append_eq_append_take]
  rw [List.take_of_length_le hn]
  exact List.prefix_append p _

/-- Every string the scan emits starts with one of the two scheme
literals. -/
theorem findallAux_mem_scheme :
    ∀ (cs : List Char) (skip : Nat) (u : List Char), u ∈ findallAux cs skip →
      ['h', 't', 't', 'p', 's', ':', '/', '/'].isPrefixOf u = true ∨
      ['h', 't', 't', 'p', ':', '/', '/'].isPrefixOf u = true := by
  intro cs
  induction cs with
  | nil => intro skip u h; cases skip <;> exact absurd h (List.not_mem_nil u)
  | cons c rest ih =>
    intro skip u h
    cases skip with
    | succ k => exact ih k u h
    | zero =>
      rw [show findallAux (c :: rest) 0
            = (match matchManifestAt (c :: rest) with
               | some n => (c :: rest).take n :: findallAux rest (n - 1)
               | none => findallAux rest 0) from rfl] at h
      cases hm : matchManifestAt (c :: rest) with
      | none =>
        rw [hm] at h
        exact ih 0 u h
      | some n =>
        rw [hm] at h
        have h₂ : u ∈ (c :: rest).take n :: findallAux rest (n - 1) := h
        rcases List.mem_cons.mp h₂ with rfl | h'
        · rcases matchManifestAt_bounds _ _ hm with ⟨hp, hn⟩ | ⟨hp, hn⟩
          · exact Or.inl (take_isPrefixOf hp (by simp; omega))
          · exact Or.inr (take_isPrefixOf hp (by simp; omega))
        · exact ih (n - 1) u h'

/-- Membership after folding `insertNew` comes from the accumulator or
from the folded list. -/
theorem mem_foldl_insertNew :
    ∀ (l acc : List String) (x : String), x ∈ l.foldl insertNew acc → x ∈ acc ∨ x ∈ l := by
  intro l
  induction l with
  | nil => intro acc x h; exact Or.inl h
  | cons a t ih =>
    intro acc x h
    rcases ih (insertNew acc a) x h with h' | h'
    · unfold insertNew at h'
      split at h'
      · exact Or.inl h'
      · rcases List.mem_append.mp h' with h'' | h''
        · exact Or.inl h''
        · rw [List.mem_singleton] at h''
          subst h''
          exact Or.inr (List.mem_cons_self _ _)
    · exact Or.inr (List.mem_cons_of_mem _ h')

/-- Every element of the manifest candidate set (before normalization)
starts with one of the two scheme literals. -/
theorem manifests_set_scheme (d : Doc) :
    ∀ u ∈ d.scriptTexts.foldl
        (fun acc sc => if sc = "" then acc else (findall_manifest sc).foldl insertNew acc)
        ((findall_manifest d.rawText).foldl insertNew []),
      ['h', 't', 't', 'p', 's', ':', '/', '/'].isPrefixOf u.data = true ∨
      ['h', 't', 't', 'p', ':', '/', '/'].isPrefixOf u.data = true := by
  have hfind : ∀ (s : String) (u : String), u ∈ findall_manifest s →
      ['h', 't', 't', 'p', 's', ':', '/', '/'].isPrefixOf u.data = true ∨
      ['h', 't', 't', 'p', ':', '/', '/'].isPrefixOf u.data = true := by
    intro s u hu
    unfold findall_manifest findallManifest at hu
    rcases List.mem_map.mp hu with ⟨chunk, hc, rfl⟩
    exact findallAux_mem_scheme s.data 0 chunk hc
  have hstep : ∀ (l : List String) (acc : List String),
      (∀ u ∈ acc,
        ['h', 't', 't', 'p', 's', ':', '/', '/'].isPrefixOf u.data = true ∨
        ['h', 't', 't', 'p', ':', '/', '/'].isPrefixOf u.data = true) →
      ∀ u ∈ l.foldl
          (fun acc sc => if sc = "" then acc else (findall_manifest sc).foldl insertNew acc)
          acc,
        ['h', 't', 't', 'p', 's', ':', '/', '/'].isPrefixOf u.data = true ∨
        ['h', 't', 't', 'p', ':', '/', '/'].isPrefixOf u.data = true := by
    intro l
    induction l with
    | nil => intro acc hacc u hu; exact hacc u hu
    | cons sc t ih =>
      intro acc hacc u hu
      refine ih _ ?_ u hu
      intro v hv
      have hv₂ : v ∈ if sc = "" then acc else (findall_manifest sc).foldl insertNew acc := hv
      by_cases he : sc = ""
      · rw [if_pos he] at hv₂; exact hacc v hv₂
      · rw [if_neg he] at hv₂
        rcases mem_foldl_insertNew _ _ _ hv₂ with h' | h'
        · exact hacc v h'
        · exact hfind sc v h'
  intro u hu
  refine hstep d.scriptTexts _ ?_ u hu
  intro v hv
  rcases mem_foldl_insertNew _ _ _ hv with h' | h'
  · exact absurd h' (List.not_mem_nil v)
  · exact hfind d.rawText v h'

/-- A string starting with a scheme literal does not start with `/`. -/
theorem scheme_not_slash {u : String}
    (h : ['h', 't', 't', 'p', 's', ':', '/', '/'].isPrefixOf u.data = true ∨
         ['h', 't', 't', 'p', ':', '/', '/'].isPrefixOf u.data = true) :
    pyStartsWith u "/" = false := by
  unfold pyStartsWith
  rcases h with h | h <;>
  · cases hd : u.data with
    | nil => rw [hd] at h; cases h
    | cons c cs =>
      rw [hd] at h
      rw [List.isPrefixOf] at h
      have hc : c = 'h' := by
        have h1 := (Bool.and_eq_true _ _).mp h |>.1
        exact (beq_iff_eq.mp h1).symm
      subst hc
      rfl

/-- Folding the normalization step over candidates that never start
with `/` never consults the base URL: it reduces to plain set
insertion. -/
theorem norm_fold_id :
    ∀ (l acc : List String) (base : String),
      (∀ u ∈ l, pyStartsWith u "/" = false) →
      l.foldl (fun acc url => insertNew acc (if pyStartsWith url "/" then urljoin base url else url))
          acc
        = l.foldl insertNew acc := by
  intro l
  induction l with
  | nil => intro acc base _; rfl
  | cons a t ih =>
    intro acc base hl
    have ha : pyStartsWith a "/" = false := hl a (List.mem_cons_self _ _)
    rw [List.foldl_cons, List.foldl_cons]
    rw [show (if pyStartsWith a "/" = true then urljoin base a else a) = a from by rw [ha]; rfl]
    exact ih _ base (fun u hu => hl u (List.mem_cons_of_mem _ hu))

/-- C10: every URL returned by `discover_manifest_urls` begins with
`http://` or `https://`, because the scanning pattern only matches
scheme-prefixed candidates; consequently the root-relative
normalization branch is never taken — the result does not depend on the
base URL at all. -/
theorem discovered_urls_scheme_absolute :
    ∀ (d : Doc) (base : String),
      (∀ u ∈ discover_manifest_urls d base,
        pyStartsWith u "http://" = true ∨ pyStartsWith u "https://" = true) ∧
      (∀ base₂ : String, discover_manifest_urls d base = discover_manifest_urls d base₂) := by
  intro d base
  have hman := manifests_set_scheme d
  have hns : ∀ u ∈ d.scriptTexts.foldl
      (fun acc sc => if sc = "" then acc else (findall_manifest sc).foldl insertNew acc)
      ((findall_manifest d.rawText).foldl insertNew []),
      pyStartsWith u "/" = false :=
    fun u hu => scheme_not_slash (hman u hu)
  constructor
  · intro u hu
    simp only [discover_manifest_urls] at hu
    rw [norm_fold_id _ [] base hns] at hu
    rcases mem_foldl_insertNew _ _ _ hu with h' | h'
    · exact absurd h' (List.not_mem_nil u)
    · rcases hman u h' with hp | hp
      · exact Or.inr hp
      · exact Or.inl hp
  · intro base₂
    simp only [discover_manifest_urls]
    rw [norm_fold_id _ [] base hns, norm_fold_id _ [] base₂ hns]

/-- Witness for C10: the URL discovered on the example page starts with
a scheme. -/
theorem discovered_urls_scheme_absolute_witness :
    pyStartsWith "https://cdn.example.com/a.m3u8" "http://" = true ∨
    pyStartsWith "https://cdn.example.com/a.m3u8" "https://" = true :=
  (discovered_urls_scheme_absolute examplePage "https://site.example/course/1").1
    "https://cdn.example.com/a.m3u8" (by decide)

/-- Inserting into a duplicate-free list keeps it duplicate-free. -/
theorem nodup_insertNew {l : List String} (h : l.Nodup) (y : String) :
    (insertNew l y).Nodup := by
  unfold insertNew
  split
  · exact h
  next hy =>
    rw [List.nodup_append]
    refine ⟨h, List.nodup_singleton y, ?_⟩
    intro a ha hb
    rw [List.mem_singleton] at hb
    subst hb
    exact hy ha

/-- The normalization fold of the extractor produces a duplicate-free
list from a duplicate-free accumulator. -/
theorem nodup_norm_fold (base : String) :
    ∀ (l acc : List String), acc.Nodup →
      (l.foldl
        (fun acc url => insertNew acc (if pyStartsWith url "/" then urljoin base url else url))
        acc).Nodup := by
  intro l
  induction l with
  | nil => intro acc h; exact h
  | cons a t ih =>
    intro acc h
    rw [List.foldl_cons]
    exact ih _ (nodup_insertNew h _)

/-- C1 counterexample: on the example page (script blob with the
absolute `.m3u8` URL, visible link with root-relative href
`/video/b.mpd`) and base URL `https://site.example/course/1`, the
extractor does NOT return the two URLs the claim demands: the resolved
root-relative manifest `https://site.example/video/b.mpd` is absent,
because the scanning pattern requires a scheme prefix, so the
root-relative candidate is never matched. -/
theorem extractor_misses_root_relative :
    discover_manifest_urls examplePage "https://site.example/course/1" =
      ["https://cdn.example.com/a.m3u8"] ∧
    "https://site.example/video/b.mpd" ∉
      discover_manifest_urls examplePage "https://site.example/course/1" := by
  constructor
  · decide
  · decide

/-- C1 amended: the extractor returns exactly the distinct
scheme-prefixed absolute manifest URLs found in the page text and
script blocks (root-relative references are never matched); on the
example page it returns exactly `https://cdn.example.com/a.m3u8`, and
in general the returned list is duplicate-free. -/
theorem extractor_returns_distinct_absolute :
    discover_manifest_urls examplePage "https://site.example/course/1" =
      ["https://cdn.example.com/a.m3u8"] ∧
    ∀ (d : Doc) (b : String), (discover_manifest_urls d b).Nodup := by
  constructor
  · decide
  · intro d b
    simp only [discover_manifest_urls]
    exact nodup_norm_fold b _ [] List.nodup_nil

/-- Membership in the set-insertion of one element. -/
theorem mem_insertNew {l : List String} {x y : String} :
    x ∈ insertNew l y ↔ x ∈ l ∨ x = y := by
  unfold insertNew
  split
  next hy =>
    constructor
    · exact Or.inl
    · rintro (h | rfl)
      · exact h
      · exact hy
  next hy => rw [List.mem_append, List.mem_singleton]

/-- Membership after one candidate-collection step. -/
theorem mem_courseStep {dash : String} {acc : List String} {h₀ x : String} :
    x ∈ courseStep dash acc h₀ ↔ x ∈ acc ∨
      ((strContains (resolveHref dash h₀) "/course/" = true ∨
        strContains (resolveHref dash h₀) "/learn/" = true) ∧
       x = stripQuery (resolveHref dash h₀)) := by
  simp only [courseStep]
  by_cases hq : (strContains (resolveHref dash h₀) "/course/"
      || strContains (resolveHref dash h₀) "/learn/") = true
  · rw [if_pos hq, mem_insertNew, Bool.or_eq_true] at *
    tauto
  · rw [if_neg hq]
    rw [Bool.or_eq_true] at hq
    tauto

/-- Membership in the candidate fold: an element is in the accumulator
or arises from a qualifying href. -/
theorem mem_candidates_fold (dash : String) :
    ∀ (hrefs acc : List String) (x : String),
      x ∈ hrefs.foldl (courseStep dash) acc ↔
        x ∈ acc ∨ ∃ h₀ ∈ hrefs,
          ((strContains (resolveHref dash h₀) "/course/" = true ∨
            strContains (resolveHref dash h₀) "/learn/" = true) ∧
           x = stripQuery (resolveHref dash h₀)) := by
  intro hrefs
  induction hrefs with
  | nil => intro acc x; simp
  | cons a t ih =>
    intro acc x
    rw [List.foldl_cons, ih, List.exists_mem_cons_iff, mem_courseStep]
    exact or_assoc

/-- The candidate fold preserves duplicate-freeness. -/
theorem nodup_candidates_fold (dash : String) :
    ∀ (hrefs acc : List String), acc.Nodup →
      (hrefs.foldl (courseStep dash) acc).Nodup := by
  intro hrefs
  induction hrefs with
  | nil => intro acc h; exact h
  | cons a t ih =>
    intro acc h
    rw [List.foldl_cons]
    refine ih _ ?_
    show (courseStep dash acc a).Nodup
    simp only [courseStep]
    split
    · exact nodup_insertNew h _
    · exact h

/-- C2 counterexample: a hyperlink whose query string (not its path)
contains the course segment qualifies, and the stored element —
query stripped — contains neither recognized segment anywhere in the
string, hence certainly not in its path; this contradicts the claimed
characterization. -/
theorem enrolled_qualifies_on_query_string :
    get_enrolled_courses
        (FetchResult.response 200 ⟨"", [], ["https://web.careerwill.com/home?next=/course/1"]⟩)
        (some "https://web.careerwill.com/") =
      ["https://web.careerwill.com/home"] ∧
    strContains "https://web.careerwill.com/home" "/course/" = false ∧
    strContains "https://web.careerwill.com/home" "/learn/" = false := by
  refine ⟨by decide, by decide, by decide⟩

/-- C2 amended: on a successful dashboard fetch, a string is returned
by `get_enrolled_courses` exactly when some parsed href, once resolved
against the dashboard URL, contains `/course/` or `/learn/` anywhere in
the resolved string (query string included), and the returned string is
that resolved href with its query string stripped. -/
theorem enrolled_membership :
    ∀ (s : Nat) (d : Doc) (dash : Option String) (x : String),
      statusOk s = true →
      (x ∈ get_enrolled_courses (FetchResult.response s d) dash ↔
        ∃ h₀ ∈ d.hrefs,
          ((strContains (resolveHref (dash.getD "https://web.careerwill.com/") h₀)
              "/course/" = true ∨
            strContains (resolveHref (dash.getD "https://web.careerwill.com/") h₀)
              "/learn/" = true) ∧
           x = stripQuery (resolveHref (dash.getD "https://web.careerwill.com/") h₀))) := by
  intro s d dash x hs
  simp only [get_enrolled_courses]
  rw [if_pos hs]
  rw [sortStrings]
  rw [List.Perm.mem_iff (List.perm_insertionSort _ _)]
  rw [candidatesOf]
  rw [mem_candidates_fold]
  simp

/-- Witness for C2 (amended) at a concrete qualifying href. -/
theorem enrolled_membership_witness :
    "https://web.careerwill.com/course/9" ∈
      get_enrolled_courses (FetchResult.response 200 ⟨"", [], ["/course/9?x=1"]⟩) none :=
  (enrolled_membership 200 ⟨"", [], ["/course/9?x=1"]⟩ none
      "https://web.careerwill.com/course/9" rfl).mpr
    ⟨"/course/9?x=1", by decide, by decide, by decide⟩

/-- The lexicographic order is total. -/
theorem lexLe_total : ∀ (as bs : List Char), lexLe as bs = true ∨ lexLe bs as = true := by
  intro as
  induction as with
  | nil => intro bs; exact Or.inl rfl
  | cons a at' ih =>
    intro bs
    cases bs with
    | nil => exact Or.inr rfl
    | cons b bt =>
      by_cases h1 : a.toNat < b.toNat
      · left; simp [lexLe, h1]
      · by_cases h2 : b.toNat < a.toNat
        · right; simp [lexLe, h2]
        · rcases ih bt with h | h
          · left; simp [lexLe, h1, h2, h]
          · right; simp [lexLe, h1, h2, h]

/-- The lexicographic order is transitive. -/
theorem lexLe_trans :
    ∀ (as bs cs : List Char), lexLe as bs = true → lexLe bs cs = true → lexLe as cs = true := by
  intro as
  induction as with
  | nil => intro bs cs _ _; rfl
  | cons a at' ih =>
    intro bs cs h1 h2
    cases bs with
    | nil => simp [lexLe] at h1
    | cons b bt =>
      cases cs with
      | nil => simp [lexLe] at h2
      | cons c ct =>
        by_cases hab : a.toNat < b.toNat
        · by_cases hbc : b.toNat < c.toNat
          · have hac : a.toNat < c.toNat := Nat.lt_trans hab hbc
            simp [lexLe, hac]
          · by_cases hcb : c.toNat < b.toNat
            · simp [lexLe, hbc, hcb] at h2
            · have hac : a.toNat < c.toNat := by omega
              simp [lexLe, hac]
        · by_cases hba : b.toNat < a.toNat
          · simp [lexLe, hab, hba] at h1
          · by_cases hbc : b.toNat < c.toNat
            · have hac : a.toNat < c.toNat := by omega
              simp [lexLe, hac]
            · by_cases hcb : c.toNat < b.toNat
              · simp [lexLe, hbc, hcb] at h2
              · have h1' : lexLe at' bt = true := by simpa [lexLe, hab, hba] using h1
                have h2' : lexLe bt ct = true := by simpa [lexLe, hbc, hcb] using h2
                have hac1 : ¬ a.toNat < c.toNat := by omega
                have hac2 : ¬ c.toNat < a.toNat := by omega
                simp [lexLe, hac1, hac2, ih bt ct h1' h2']

/-- The lexicographic order is antisymmetric. -/
theorem lexLe_antisymm :
    ∀ (as bs : List Char), lexLe as bs = true → lexLe bs as = true → as = bs := by
  intro as
  induction as with
  | nil =>
    intro bs h1 h2
    cases bs with
    | nil => rfl
    | cons b bt => simp [lexLe] at h2
  | cons a at' ih =>
    intro bs h1 h2
    cases bs with
    | nil => simp [lexLe] at h1
    | cons b bt =>
      by_cases hab : a.toNat < b.toNat
      · have hba : ¬ b.toNat < a.toNat := by omega
        simp [lexLe, hab, hba] at h2
      · by_cases hba : b.toNat < a.toNat
        · simp [lexLe, hab, hba] at h1
        · have hn : a.toNat = b.toNat := by omega
          have hc : a = b := by
            apply Char.ext
            have hv : a.val.toNat = b.val.toNat := hn
            exact UInt32.toNat.inj hv
          have h1' : lexLe at' bt = true := by simpa [lexLe, hab, hba] using h1
          have h2' : lexLe bt at' = true := by simpa [lexLe, hab, hba] using h2
          rw [hc, ih bt h1' h2']

/-- Stripping the query string is idempotent. -/
theorem stripQuery_idem (s : String) : stripQuery (stripQuery s) = stripQuery s := by
  unfold stripQuery
  congr 1
  exact List.takeWhile_idem

/-- C4: `get_enrolled_courses` always returns a list that is sorted in
the code-point lexicographic order, duplicate-free, and whose entries
carry no query string (each is a fixed point of query stripping); two
hyperlinks differing only by query string leave exactly one entry; and
the output is independent of the page's link order (any permutation of
the hrefs yields the identical list). -/
theorem enrolled_sorted_dedup_stripped :
    ∀ (fetch : FetchResult) (dash : Option String),
      List.Sorted (fun a b => strLe a b = true) (get_enrolled_courses fetch dash) ∧
      (get_enrolled_courses fetch dash).Nodup ∧
      (∀ x ∈ get_enrolled_courses fetch dash, stripQuery x = x) ∧
      get_enrolled_courses
          (FetchResult.response 200 ⟨"", [], ["/course/9?x=1", "/course/9?y=2"]⟩) none =
        ["https://web.careerwill.com/course/9"] ∧
      (∀ (s : Nat) (d₁ d₂ : Doc) (dash₀ : Option String), d₁.hrefs.Perm d₂.hrefs →
        get_enrolled_courses (FetchResult.response s d₁) dash₀ =
          get_enrolled_courses (FetchResult.response s d₂) dash₀) := by
  have hsorted : ∀ l, List.Sorted (fun a b => strLe a b = true) (sortStrings l) := by
    intro l
    exact @List.sorted_insertionSort String (fun a b => strLe a b = true) _
      ⟨fun a b => lexLe_total a.data b.data⟩ ⟨fun a b c => lexLe_trans a.data b.data c.data⟩ l
  have hforms : ∀ (fetch : FetchResult) (dash : Option String),
      get_enrolled_courses fetch dash = [] ∨
      ∃ dash₂ hrefs, get_enrolled_courses fetch dash = sortStrings (candidatesOf dash₂ hrefs) := by
    intro fetch dash
    cases fetch with
    | netError => exact Or.inl rfl
    | response s d =>
      by_cases hs : statusOk s = true
      · exact Or.inr ⟨dash.getD "https://web.careerwill.com/", d.hrefs,
          by simp [get_enrolled_courses, hs]⟩
      · left; simp [get_enrolled_courses, hs]
  intro fetch dash
  refine ⟨?_, ?_, ?_, by decide, ?_⟩
  · rcases hforms fetch dash with h | ⟨dash₂, hrefs, h⟩ <;> rw [h]
    · exact List.sorted_nil
    · exact hsorted _
  · rcases hforms fetch dash with h | ⟨dash₂, hrefs, h⟩ <;> rw [h]
    · exact List.nodup_nil
    · exact (List.Perm.nodup_iff (List.perm_insertionSort _ _)).mpr
        (nodup_candidates_fold dash₂ hrefs [] List.nodup_nil)
  · rcases hforms fetch dash with h | ⟨dash₂, hrefs, h⟩ <;> rw [h]
    · intro x hx; exact absurd hx (List.not_mem_nil x)
    · intro x hx
      rw [sortStrings, List.Perm.mem_iff (List.perm_insertionSort _ _), candidatesOf,
        mem_candidates_fold] at hx
      rcases hx with hx | ⟨h₀, _, _, hx⟩
      · exact absurd hx (List.not_mem_nil x)
      · rw [hx]; exact stripQuery_idem _
  · intro s d₁ d₂ dash₀ hperm
    by_cases hs : statusOk s = true
    · simp only [get_enrolled_courses]
      rw [if_pos hs, if_pos hs]
      have hn₁ : (candidatesOf (dash₀.getD "https://web.careerwill.com/") d₁.hrefs).Nodup :=
        nodup_candidates_fold _ _ [] List.nodup_nil
      have hn₂ : (candidatesOf (dash₀.getD "https://web.careerwill.com/") d₂.hrefs).Nodup :=
        nodup_candidates_fold _ _ [] List.nodup_nil
      refine @List.eq_of_perm_of_sorted String (fun a b => strLe a b = true)
        ⟨fun a b h1 h2 => String.toList_inj.mp (lexLe_antisymm a.data b.data h1 h2)⟩
        _ _ ?_ (hsorted _) (hsorted _)
      refine (List.perm_insertionSort _ _).trans
        (List.Perm.trans ?_ (List.perm_insertionSort _ _).symm)
      rw [List.perm_ext_iff_of_nodup hn₁ hn₂]
      intro x
      rw [candidatesOf, candidatesOf, mem_candidates_fold, mem_candidates_fold]
      simp only [List.not_mem_nil, false_or]
      constructor
      · rintro ⟨h₀, hm, hp⟩; exact ⟨h₀, hperm.mem_iff.mp hm, hp⟩
      · rintro ⟨h₀, hm, hp⟩; exact ⟨h₀, hperm.mem_iff.mpr hm, hp⟩
    · simp only [get_enrolled_courses]
      rw [if_neg hs, if_neg hs]

/-- Witness for C4: the single surviving entry is query-free. -/
theorem enrolled_sorted_dedup_stripped_witness :
    stripQuery "https://web.careerwill.com/course/9" = "https://web.careerwill.com/course/9" :=
  (enrolled_sorted_dedup_stripped
      (FetchResult.response 200 ⟨"", [], ["/course/9?x=1", "/course/9?y=2"]⟩) none).2.2.1
    "https://web.careerwill.com/course/9" (by decide)

end Careerwill
